import Mathlib

/-!
Verification of the icicle command-line toolkit: a shallow embedding of
`src/args.rs` (tokenizer / subcommand resolver) and `src/lib.rs`
(command tree, builders, validator/dispatcher `Command::run`).

Closures are abstracted by identifiers: an action is `Option Nat` and a
help callback is `Option Nat`; the behaviour of actions is injected into
`Command.run` as a function from identifiers, and `run` reports which
callback it rendered help through and which action it invoked as a list
of events, so that the observable control flow of the Rust code is a
value we can reason about.
-/

namespace Icicle

/-- a command line option (--example, -e); mirrors `CLIOption` in lib.rs. -/
structure CLIOption where
  names : List String
  desc : String
  required : Bool
deriving DecidableEq, Repr

/-- a command line positional argument; mirrors `CLIArgument` in lib.rs. -/
structure CLIArgument where
  desc : String
  required : Bool
  array : Bool
deriving DecidableEq, Repr

/-- a node of the command tree; mirrors `Command` in lib.rs with closures
replaced by identifiers (`action`, `help` are `Option Nat`). -/
inductive Command where
  | mk
      (names : List String)
      (action : Option Nat)
      (help : Option Nat)
      (desc : Option String)
      (children : List Command)
      (options : List CLIOption)
      (arguments : List CLIArgument)
      : Command

/-- field accessor: all aliases for the command. -/
def Command.names : Command → List String
  | .mk n _ _ _ _ _ _ => n

/-- field accessor: identifier of the action callback, if any. -/
def Command.action : Command → Option Nat
  | .mk _ a _ _ _ _ _ => a

/-- field accessor: identifier of the help callback, if any. -/
def Command.help : Command → Option Nat
  | .mk _ _ h _ _ _ _ => h

/-- field accessor: optional description. -/
def Command.desc : Command → Option String
  | .mk _ _ _ d _ _ _ => d

/-- field accessor: subcommands. -/
def Command.children : Command → List Command
  | .mk _ _ _ _ c _ _ => c

/-- field accessor: declared options. -/
def Command.options : Command → List CLIOption
  | .mk _ _ _ _ _ o _ => o

/-- field accessor: declared positional arguments. -/
def Command.arguments : Command → List CLIArgument
  | .mk _ _ _ _ _ _ a => a

/-- lookup in the options map; models `HashMap::get` on `Args.opts`. -/
def findOpt : List (String × String) → String → Option String
  | [], _ => none
  | (k, v) :: rest, key => if k = key then some v else findOpt rest key

/-- insertion into the options map; models `HashMap::insert` on
`Args.opts` (overwrites the value when the key is present). -/
def insertOpt : List (String × String) → String → String → List (String × String)
  | [], key, val => [(key, val)]
  | (k, v) :: rest, key, val =>
      if k = key then (key, val) :: rest else (k, v) :: insertOpt rest key val

/-- key membership in the options map; models `HashMap::contains_key`. -/
def hasOpt (m : List (String × String)) (key : String) : Bool :=
  (findOpt m key).isSome

/-- splits a character list at the first `=`, returning the part before it
and, when an `=` occurs, the part after it; models `str::splitn(2, '=')`. -/
def splitEqAux : List Char → List Char × Option (List Char)
  | [] => ([], none)
  | c :: rest =>
      if c = '=' then ([], some rest)
      else
        let r := splitEqAux rest
        (c :: r.1, r.2)

/-- splits a string at the first `=`; models `arg.splitn(2, '=')` where the
second component is `none` when no `=` occurs. -/
def splitFirstEq (s : String) : String × Option String :=
  let r := splitEqAux s.data
  (String.mk r.1, r.2.map String.mk)

/-- checks whether `s` begins with `pre`; models `str::starts_with`. -/
def strStarts (s pre : String) : Bool :=
  List.isPrefixOf pre.data s.data

/-- stores parsed command line arguments; mirrors `Args` in args.rs with the
hash map modelled as an association list with overwrite-on-insert. -/
structure Args where
  opts : List (String × String)
  pos : List String
deriving DecidableEq, Repr

/-- the mutable state of the parsing loop in `Args::parse`: the current
command, the accumulating option map and positional list, the resolved
help callback and the `ignore_options` flag. -/
structure ParseState where
  cur : Command
  opts : List (String × String)
  pos : List String
  help_fn : Option Nat
  ignore : Bool

/-- the subcommand search of `Args::parse`: the first child of `c` (in
declared order) one of whose names equals `arg`. -/
def findChild (c : Command) (arg : String) : Option Command :=
  c.children.find? (fun cmd => cmd.names.any (fun al => al == arg))

/-- the inner `for ch in chars` loop of the short-option branch of
`Args::parse`: inserts `"-" + ch ↦ value` for every character. -/
def shortInsert (m : List (String × String)) (chars : List Char)
    (value : String) : List (String × String) :=
  chars.foldl (fun m ch => insertOpt m (String.mk ['-', ch]) value) m

/-- one iteration of the `for arg in arguments` loop of `Args::parse`. -/
def parseStep (s : ParseState) (arg : String) : ParseState :=
  match findChild s.cur arg with
  | some cmd =>
      { s with cur := cmd, help_fn := (cmd.help).or s.help_fn }
  | none =>
      if s.ignore = false then
        if arg == "--" then
          { s with ignore := true }
        else if strStarts arg "--" then
          let sp := splitFirstEq arg
          { s with opts := insertOpt s.opts sp.1 (sp.2.getD "true") }
        else if strStarts arg "-" then
          let sp := splitFirstEq arg
          let value := sp.2.getD "true"
          { s with opts := shortInsert s.opts (sp.1.data.drop 1) value }
        else
          { s with pos := s.pos ++ [arg] }
      else
        { s with pos := s.pos ++ [arg] }

/-- the whole `for` loop of `Args::parse`, folded over the token list. -/
def parseLoop (s : ParseState) : List String → ParseState
  | [] => s
  | a :: rest => parseLoop (parseStep s a) rest

/-- the initial loop state of `Args::parse`: current command is the root,
both collections empty, no help callback, options not ignored. -/
def initState (root : Command) : ParseState :=
  ⟨root, [], [], none, false⟩

/-- parses command line arguments for the given command; mirrors
`Args::parse`, returning the matched command, the parsed arguments and the
resolved help callback. -/
def Args.parse (command : Command) (arguments : List String) :
    Command × Args × Option Nat :=
  let s := parseLoop (initState command) arguments
  (s.cur, ⟨s.opts, s.pos⟩, s.help_fn)

/-- tries to get and parse the option value by name; mirrors `Args::get`
with the `FromStr` instance abstracted as `p` (`Err` collapsed to `none`). -/
def Args.get {α : Type} (p : String → Option α) (a : Args) (name : String) :
    Option α :=
  match findOpt a.opts name with
  | none => none
  | some s => p s

/-- tries to get and parse the option value by either name; mirrors
`Args::get_or`. -/
def Args.get_or {α : Type} (p : String → Option α) (a : Args)
    (name other : String) : Option α :=
  if hasOpt a.opts name then a.get p name else a.get p other

/-! ## Builder surface of `Command` (lib.rs) -/

/-- creates a new command with a given name; mirrors `Command::new`. -/
def Command.new (name : String) : Command :=
  .mk [name] none none none [] [] []

/-- sets the action (by identifier); mirrors `Command::action`. -/
def Command.set_action (c : Command) (i : Nat) : Command :=
  match c with
  | .mk ns _ h d ch o a => .mk ns (some i) h d ch o a

/-- sets the help callback (by identifier); mirrors `Command::help`. -/
def Command.set_help (c : Command) (i : Nat) : Command :=
  match c with
  | .mk ns act _ d ch o a => .mk ns act (some i) d ch o a

/-- sets the description; mirrors `Command::desc`. -/
def Command.set_desc (c : Command) (text : String) : Command :=
  match c with
  | .mk ns act h _ ch o a => .mk ns act h (some text) ch o a

/-- adds an alias; mirrors `Command::alias`. -/
def Command.pushAlias (c : Command) (al : String) : Command :=
  match c with
  | .mk ns act h d ch o a => .mk (ns ++ [al]) act h d ch o a

/-- adds a required option with comma-separated names; mirrors
`Command::option`. -/
def Command.option (c : Command) (names desc : String) : Command :=
  match c with
  | .mk ns act h d ch o a =>
      .mk ns act h d ch
        (o ++ [⟨(names.splitOn ",").map (fun s => s.trim), desc, true⟩]) a

/-- adds an optional option with comma-separated names; mirrors
`Command::opt_option`. -/
def Command.opt_option (c : Command) (names desc : String) : Command :=
  match c with
  | .mk ns act h d ch o a =>
      .mk ns act h d ch
        (o ++ [⟨(names.splitOn ",").map (fun s => s.trim), desc, false⟩]) a

/-- adds a required positional argument; mirrors `Command::argument`. -/
def Command.argument (c : Command) (desc : String) : Command :=
  match c with
  | .mk ns act h d ch o a => .mk ns act h d ch o (a ++ [⟨desc, true, false⟩])

/-- adds a positional argument that captures multiple values; mirrors
`Command::array_argument` (note: `required` is set to `false`). -/
def Command.array_argument (c : Command) (desc : String) : Command :=
  match c with
  | .mk ns act h d ch o a => .mk ns act h d ch o (a ++ [⟨desc, false, true⟩])

/-- adds an optional positional argument; mirrors `Command::opt_argument`. -/
def Command.opt_argument (c : Command) (desc : String) : Command :=
  match c with
  | .mk ns act h d ch o a => .mk ns act h d ch o (a ++ [⟨desc, false, false⟩])

/-- adds a subcommand; mirrors `Command::add`. -/
def Command.add (c : Command) (other : Command) : Command :=
  match c with
  | .mk ns act h d ch o a => .mk ns act h d (ch ++ [other]) o a

/-- creates and adds a new subcommand by name; mirrors `Command::command`
(the Rust method returns the attached child for further building; further
building of the child is modelled by building the child first). -/
def Command.command (c : Command) (name : String) : Command :=
  c.add (Command.new name)

/-! ## The validator / dispatcher `Command::run` (lib.rs) -/

/-- reasons for a help screen to be triggered; mirrors `HelpReason`. -/
inductive HelpReason where
  | UserAsked : HelpReason
  | MissingAction : HelpReason
  | MissingOption : CLIOption → HelpReason
  | MissingArgument : Nat → Nat → HelpReason
deriving DecidableEq, Repr

/-- reasons that running a command might have failed; mirrors
`CommandError`. -/
inductive CommandError where
  | MissingOption : CLIOption → CommandError
  | MissingArgument : Nat → Nat → CommandError
deriving DecidableEq, Repr

/-- the error side of `Command::run`'s result type
`Result<(), Box<dyn Error>>`: either a `CommandError` raised by validation
or an error value propagated from the action. -/
inductive RunErr where
  | cmd : CommandError → RunErr
  | act : String → RunErr
deriving DecidableEq, Repr

/-- an observable side effect of `Command::run`: rendering help (through the
resolved callback identifier, or `none` for `default_help`) or invoking the
action with the given identifier. -/
inductive RunEvent where
  | renderHelp : Option Nat → HelpReason → RunEvent
  | invokeAction : Nat → RunEvent
deriving DecidableEq, Repr

/-- what one call of `Command::run` does: the side effects it performs, in
order, and the value it returns. -/
structure RunOutput where
  events : List RunEvent
  result : Except RunErr Unit
deriving Repr

/-- the `// check for required options` loop of `Command::run`: the first
declared option that is required and none of whose names is a key in the
options map, if any. -/
def firstFailingOption : List CLIOption → List (String × String) → Option CLIOption
  | [], _ => none
  | o :: rest, opts =>
      if o.required then
        if o.names.any (fun name => hasOpt opts name) then
          firstFailingOption rest opts
        else some o
      else firstFailingOption rest opts

/-- the `// check for required arguments` loop of `Command::run`, started at
index `i`: the first declared argument (from `i` on) that is required and has
no positional value, together with the reported end index (`total` is
`command.arguments.len()`). -/
def findMissingArg (total : Nat) (posArgs : List String) :
    Nat → List CLIArgument → Option (Nat × Nat)
  | _, [] => none
  | i, a :: rest =>
      if a.required ∧ posArgs.length ≤ i then
        some (i, if a.array then total else i)
      else findMissingArg total posArgs (i + 1) rest

/-- runs the command with given argument strings; mirrors `Command::run`.
`actionRun` injects the behaviour of action closures: identifier and parsed
arguments to the action's result. -/
def Command.run (actionRun : Nat → Args → Except String Unit) (root : Command)
    (args : List String) : RunOutput :=
  let r := Args.parse root args
  let command := r.1
  let a := r.2.1
  let help_option := r.2.2
  if hasOpt a.opts "--help" then
    ⟨[.renderHelp help_option .MissingAction], .ok ()⟩
  else
    match firstFailingOption command.options a.opts with
    | some o =>
        ⟨[.renderHelp help_option (.MissingOption o)],
          .error (.cmd (.MissingOption o))⟩
    | none =>
        match findMissingArg command.arguments.length a.pos 0 command.arguments with
        | some pe =>
            ⟨[.renderHelp help_option (.MissingArgument pe.1 pe.2)],
              .error (.cmd (.MissingArgument pe.1 pe.2))⟩
        | none =>
            match command.action with
            | some i => ⟨[.invokeAction i], (actionRun i a).mapError RunErr.act⟩
            | none => ⟨[.renderHelp help_option .MissingAction], .ok ()⟩

/-! ## Commands reachable through the public builder surface -/

/-- the commands constructible through `Command::new` and the public builder
methods of lib.rs (children attached by `add`/`command` are themselves
built). -/
inductive Built : Command → Prop where
  | new (name : String) : Built (Command.new name)
  | set_action {c : Command} (i : Nat) : Built c → Built (c.set_action i)
  | set_help {c : Command} (i : Nat) : Built c → Built (c.set_help i)
  | set_desc {c : Command} (text : String) : Built c → Built (c.set_desc text)
  | pushAlias {c : Command} (al : String) : Built c → Built (c.pushAlias al)
  | option {c : Command} (names desc : String) : Built c → Built (c.option names desc)
  | opt_option {c : Command} (names desc : String) : Built c → Built (c.opt_option names desc)
  | argument {c : Command} (desc : String) : Built c → Built (c.argument desc)
  | array_argument {c : Command} (desc : String) : Built c → Built (c.array_argument desc)
  | opt_argument {c : Command} (desc : String) : Built c → Built (c.opt_argument desc)
  | add {c d : Command} : Built c → Built d → Built (c.add d)
  | command {c : Command} (name : String) : Built c → Built (c.command name)

/-- the tree-wide invariant that every declared argument marked `array` is
not marked `required` (at this node and at every descendant). -/
inductive TreeInv : Command → Prop where
  | mk {ns act h d ch o args} :
      (∀ a ∈ args, (a : CLIArgument).array = true → a.required = false) →
      (∀ c ∈ ch, TreeInv c) →
      TreeInv (Command.mk ns act h d ch o args)

/-! ## Concrete commands and action environments used in the theorems -/

/-- a leaf command named "a". -/
def cmdA : Command := .mk ["a"] none none none [] [] []

/-- a root command with the single child `cmdA`. -/
def rootC1 : Command := .mk ["root"] none none none [cmdA] [] []

/-- a root command that declares its own help callback (identifier 7) and
has no children. -/
def rootH : Command := .mk ["root"] none (some 7) none [] [] []

/-- an action environment in which every action succeeds. -/
def f0 : Nat → Args → Except String Unit := fun _ _ => .ok ()

/-- a command with an action (identifier 5) and one required option `-r`. -/
def cmdReq : Command := .mk ["r"] (some 5) none none [] [⟨["-r"], "req", true⟩] []

/-- a command whose sole declared argument is a required array argument
(constructible only by writing the fields directly, as the crate's own
tests do — the public builders never produce it). -/
def cmdC3 : Command := .mk ["r"] none none none [] [] [⟨"xs", true, true⟩]

/-- a command with no action and nothing to validate. -/
def cmdNoAct : Command := .mk ["r"] none none none [] [] []

/-- the same command with an action (identifier 0). -/
def cmdAct : Command := .mk ["r"] (some 0) none none [] [] []

/-- child A with the single name "a" (action identifier 1 as a marker). -/
def cmdA8 : Command := .mk ["a"] (some 1) none none [] [] []

/-- child B declared after A, with names `["a", "b"]` (action identifier 2
as a marker). -/
def cmdB8 : Command := .mk ["a", "b"] (some 2) none none [] [] []

/-- a root whose children are `[cmdA8, cmdB8]`, in that order. -/
def rootAB : Command := .mk ["root"] none none none [cmdA8, cmdB8] [] []

/-- a built command with one required scalar argument. -/
def cmdBuilt : Command := (Command.new "t").argument "x"

/-- example parsed arguments: `-x` bound to a non-numeric string, `-y`
bound to a numeric one. -/
def exArgs : Args := ⟨[("-x", "abc"), ("-y", "5")], []⟩

/-- a parse state over `rootC1` in which `--` has already been seen
(`ignore` is set). -/
def sIgn : ParseState := ⟨rootC1, [], [], none, true⟩

/-- a concrete `FromStr`-style parse function for the examples: decimal
digits to a natural number, `none` on any non-digit input. -/
def pNat (s : String) : Option Nat :=
  if s.data ≠ [] ∧ s.data.all Char.isDigit then
    some (s.data.foldl (fun n c => n * 10 + (c.toNat - '0'.toNat)) 0)
  else none

/-! ## Helper lemmas about the option map -/

theorem findOpt_insertOpt (m : List (String × String)) (k v k' : String) :
    findOpt (insertOpt m k v) k' = if k = k' then some v else findOpt m k' := by
  induction m with
  | nil => simp [insertOpt, findOpt]
  | cons p rest ih =>
      obtain ⟨a, b⟩ := p
      by_cases hak : a = k
      · subst hak
        by_cases hk : a = k' <;> simp [insertOpt, findOpt, hk]
      · by_cases hk : a = k'
        · subst hk
          have hkk : ¬k = a := fun h => hak h.symm
          simp [insertOpt, findOpt, hak, hkk]
        · by_cases hkk : k = k'
          · subst hkk
            simp [insertOpt, findOpt, hak, hk, ih]
          · simp [insertOpt, findOpt, hak, hk, hkk, ih]

theorem findOpt_shortInsert (chars : List Char) (m : List (String × String))
    (v k : String) :
    findOpt (shortInsert m chars v) k =
      if (chars.any fun c => k == String.mk ['-', c]) = true then some v
      else findOpt m k := by
  induction chars generalizing m with
  | nil => simp [shortInsert]
  | cons c cs ih =>
      show findOpt (shortInsert (insertOpt m (String.mk ['-', c]) v) cs v) k = _
      rw [ih, findOpt_insertOpt, List.any_cons]
      by_cases hcs : (cs.any fun c' => k == String.mk ['-', c']) = true
      · simp [hcs]
      · by_cases hc : (k == String.mk ['-', c]) = true
        · have heq : String.mk ['-', c] = k := (beq_iff_eq.mp hc).symm
          simp [hcs, hc, heq]
        · have hne : ¬String.mk ['-', c] = k := by
            intro h
            subst h
            simp at hc
          simp [hcs, hc, hne]

theorem findOpt_shortInsert_mem {chars : List Char} {c : Char}
    (m : List (String × String)) (v : String) (hc : c ∈ chars) :
    findOpt (shortInsert m chars v) (String.mk ['-', c]) = some v := by
  rw [findOpt_shortInsert]
  have hany : (chars.any fun c' => String.mk ['-', c] == String.mk ['-', c']) = true :=
    List.any_eq_true.mpr ⟨c, hc, by simp⟩
  simp [hany]

/-! ## Helper lemmas about the validation loops -/

theorem find?_first {α : Type} (p : α → Bool) :
    ∀ (pre : List α) (c : α) (post : List α),
      (∀ d ∈ pre, p d = false) → p c = true →
      (pre ++ c :: post).find? p = some c := by
  intro pre
  induction pre with
  | nil => intro c post _ hc; simp [List.find?, hc]
  | cons d pre ih =>
      intro c post hpre hc
      have hd : p d = false := hpre d (List.mem_cons_self d pre)
      simp only [List.cons_append, List.find?, hd]
      exact ih c post (fun e he => hpre e (List.mem_cons_of_mem d he)) hc

theorem firstFailingOption_first :
    ∀ (pre : List CLIOption) (o : CLIOption) (post : List CLIOption)
      (opts : List (String × String)),
      (∀ p ∈ pre, p.required = true → (p.names.any fun n => hasOpt opts n) = true) →
      o.required = true → (o.names.any fun n => hasOpt opts n) = false →
      firstFailingOption (pre ++ o :: post) opts = some o := by
  intro pre
  induction pre with
  | nil =>
      intro o post opts _ ho hany
      simp [firstFailingOption, ho, hany]
  | cons p pre ih =>
      intro o post opts hpre ho hany
      have tail := ih o post opts
        (fun q hq => hpre q (List.mem_cons_of_mem p hq)) ho hany
      by_cases hp : p.required = true
      · have := hpre p (List.mem_cons_self p pre) hp
        simp [firstFailingOption, hp, this, tail]
      · simp only [Bool.not_eq_true] at hp
        simp [firstFailingOption, hp, tail]

theorem findMissingArg_first :
    ∀ (pre : List CLIArgument) (a : CLIArgument) (post : List CLIArgument)
      (j total : Nat) (posArgs : List String),
      (∀ m b, pre[m]? = some b → b.required = true → j + m < posArgs.length) →
      a.required = true → posArgs.length ≤ j + pre.length →
      findMissingArg total posArgs j (pre ++ a :: post) =
        some (j + pre.length, if a.array then total else j + pre.length) := by
  intro pre
  induction pre with
  | nil =>
      intro a post j total posArgs _ ha hlen
      simp only [List.length_nil, Nat.add_zero] at hlen ⊢
      simp [findMissingArg, ha, hlen]
  | cons b pre ih =>
      intro a post j total posArgs hpre ha hlen
      have hb : ¬(b.required = true ∧ posArgs.length ≤ j) := by
        rintro ⟨hreq, hle⟩
        have := hpre 0 b (by simp) hreq
        omega
      have tail := ih a post (j + 1) total posArgs
        (fun m c hm hc => by
          have := hpre (m + 1) c (by simpa using hm) hc
          omega)
        ha (by simp at hlen ⊢; omega)
      simp only [List.cons_append, findMissingArg, List.append_eq]
      rw [if_neg hb, tail]
      have : j + 1 + pre.length = j + (b :: pre).length := by
        simp [List.length_cons]
        omega
      rw [this]

theorem findMissingArg_scalar :
    ∀ (l : List CLIArgument) (j total : Nat) (posArgs : List String) (i e : Nat),
      (∀ a ∈ l, a.array = true → a.required = false) →
      findMissingArg total posArgs j l = some (i, e) → e = i := by
  intro l
  induction l with
  | nil => intro j total posArgs i e _ h; simp [findMissingArg] at h
  | cons a rest ih =>
      intro j total posArgs i e hinv h
      by_cases hc : a.required = true ∧ posArgs.length ≤ j
      · have harr : a.array = false := by
          by_cases harr : a.array = true
          · have := hinv a (List.mem_cons_self a rest) harr
            rw [this] at hc
            simp at hc
          · simpa using harr
        simp [findMissingArg, hc, harr] at h
        omega
      · simp only [findMissingArg, hc, if_false] at h
        exact ih (j + 1) total posArgs i e
          (fun b hb => hinv b (List.mem_cons_of_mem a hb)) h

/-! ## Helper lemmas about the builder invariant -/

theorem treeInv_arguments {c : Command} (h : TreeInv c) :
    ∀ a ∈ c.arguments, a.array = true → a.required = false := by
  cases h with
  | mk h1 h2 => exact h1

theorem treeInv_children {c : Command} (h : TreeInv c) :
    ∀ d ∈ c.children, TreeInv d := by
  cases h with
  | mk h1 h2 => exact h2

theorem built_treeInv {c : Command} (h : Built c) : TreeInv c := by
  induction h with
  | new name => exact TreeInv.mk (by simp) (by simp)
  | set_action i hb ih =>
      cases ih with
      | mk h1 h2 => exact TreeInv.mk h1 h2
  | set_help i hb ih =>
      cases ih with
      | mk h1 h2 => exact TreeInv.mk h1 h2
  | set_desc text hb ih =>
      cases ih with
      | mk h1 h2 => exact TreeInv.mk h1 h2
  | pushAlias al hb ih =>
      cases ih with
      | mk h1 h2 => exact TreeInv.mk h1 h2
  | option names desc hb ih =>
      cases ih with
      | mk h1 h2 => exact TreeInv.mk h1 h2
  | opt_option names desc hb ih =>
      cases ih with
      | mk h1 h2 => exact TreeInv.mk h1 h2
  | argument desc hb ih =>
      cases ih with
      | mk h1 h2 =>
          refine TreeInv.mk (fun a ha harr => ?_) h2
          rcases List.mem_append.mp ha with hmem | hmem
          · exact h1 a hmem harr
          · simp at hmem
            subst hmem
            simp at harr
  | array_argument desc hb ih =>
      cases ih with
      | mk h1 h2 =>
          refine TreeInv.mk (fun a ha harr => ?_) h2
          rcases List.mem_append.mp ha with hmem | hmem
          · exact h1 a hmem harr
          · simp at hmem
            subst hmem
            rfl
  | opt_argument desc hb ih =>
      cases ih with
      | mk h1 h2 =>
          refine TreeInv.mk (fun a ha harr => ?_) h2
          rcases List.mem_append.mp ha with hmem | hmem
          · exact h1 a hmem harr
          · simp at hmem
            subst hmem
            rfl
  | add hbc hbd ihc ihd =>
      cases ihc with
      | mk h1 h2 =>
          refine TreeInv.mk h1 (fun d hd => ?_)
          rcases List.mem_append.mp hd with hmem | hmem
          · exact h2 d hmem
          · simp at hmem
            subst hmem
            exact ihd
  | command name hb ih =>
      cases ih with
      | mk h1 h2 =>
          refine TreeInv.mk h1 (fun d hd => ?_)
          rcases List.mem_append.mp hd with hmem | hmem
          · exact h2 d hmem
          · simp at hmem
            subst hmem
            exact TreeInv.mk (by simp) (by simp)

theorem findChild_mem {c : Command} {t : String} {d : Command}
    (h : findChild c t = some d) : d ∈ c.children :=
  List.mem_of_find?_eq_some h

theorem treeInv_parseStep {s : ParseState} {t : String}
    (h : TreeInv s.cur) : TreeInv (parseStep s t).cur := by
  rcases hf : findChild s.cur t with _ | c
  · unfold parseStep
    rw [hf]
    split_ifs <;> exact h
  · unfold parseStep
    rw [hf]
    exact treeInv_children h c (findChild_mem hf)

theorem treeInv_parseLoop :
    ∀ (args : List String) (s : ParseState),
      TreeInv s.cur → TreeInv (parseLoop s args).cur := by
  intro args
  induction args with
  | nil => intro s h; exact h
  | cons a rest ih => intro s h; exact ih (parseStep s a) (treeInv_parseStep h)

theorem treeInv_parse {root : Command} (args : List String)
    (h : TreeInv root) : TreeInv (Args.parse root args).1 :=
  treeInv_parseLoop args (initState root) h

/-! ## Claim theorems -/

/-- C1 counterexample: in `Args::parse`, after the `--` terminator has been
seen, a later token (`"a"`) is still matched as a subcommand of the current
command: the returned command is the child named "a", not the root, and
`pos` stays empty — refuting the claim that no later token is matched as a
subcommand and that `current_command` never changes after `--`. -/
theorem c1_counterexample :
    (Args.parse rootC1 ["--", "a"]).1.names = ["a"] ∧
    (Args.parse rootC1 ["--", "a"]).2.1.pos = [] ∧
    rootC1.names = ["root"] ∧
    (Args.parse rootC1 ["--", "a"]).1.names ≠ rootC1.names :=
  ⟨rfl, rfl, rfl, by decide⟩

/-- C1 (amended): subcommand matching is attempted for every token for the
whole parse — a token matching a child still descends (and updates the
current command) even after `--` has been seen; however, `ignore_options`
is irreversible and, once it is set, every token that does not match a
child is appended to `pos` and never treated as an option. -/
theorem c1_subcommand_matching_persists (s : ParseState) (t : String)
    (c : Command) (h : s.ignore = true) :
    (parseStep s t).ignore = true ∧
    (findChild s.cur t = none →
      parseStep s t = { s with pos := s.pos ++ [t] }) ∧
    (findChild s.cur t = some c →
      parseStep s t = { s with cur := c, help_fn := c.help.or s.help_fn }) := by
  refine ⟨?_, ?_, ?_⟩
  · rcases hf : findChild s.cur t with _ | d
    · unfold parseStep
      rw [hf]
      simp [h]
    · unfold parseStep
      rw [hf]
      simpa using h
  · intro hf
    unfold parseStep
    rw [hf]
    simp [h]
  · intro hf
    unfold parseStep
    rw [hf]

/-- C1 witness: concrete use on `sIgn` (where `--` has been seen) and the
token "a": the token still descends into the child `cmdA`. -/
theorem c1_witness :
    sIgn.ignore = true ∧
    ((parseStep sIgn "a").ignore = true ∧
      (findChild sIgn.cur "a" = none →
        parseStep sIgn "a" = { sIgn with pos := sIgn.pos ++ ["a"] }) ∧
      (findChild sIgn.cur "a" = some cmdA →
        parseStep sIgn "a" =
          { sIgn with cur := cmdA, help_fn := cmdA.help.or sIgn.help_fn })) :=
  ⟨rfl, c1_subcommand_matching_persists sIgn "a" cmdA rfl⟩

/-- C2 (code bug): when `--help` is a key of the parsed options, `run`
renders help through the resolved callback or the default renderer, skips
the required-option check (here `-r` is required and absent), does not
invoke the action (identifier 5), and returns Ok — but the reason it passes
is `HelpReason::MissingAction`, not `UserAsked` as the claim (and the
`UserAsked` variant's own documentation) states. -/
theorem c2_help_flag_reason_is_missing_action :
    Command.run f0 cmdReq ["--help"] =
      ⟨[.renderHelp none .MissingAction], .ok ()⟩ ∧
    HelpReason.MissingAction ≠ HelpReason.UserAsked ∧
    cmdReq.options = [⟨["-r"], "req", true⟩] ∧
    cmdReq.action = some 5 :=
  ⟨rfl, by decide, rfl, rfl⟩

/-- C3 counterexample: a command whose sole declared argument is a required
array argument, run with zero positionals, fails with
`MissingArgument(0, 1)` — the end index is `arguments.len()`, not
`arguments.len() - 1 = 0` as the claim states. -/
theorem c3_counterexample :
    (Command.run f0 cmdC3 []).result =
      .error (.cmd (.MissingArgument 0 1)) ∧
    (Command.run f0 cmdC3 []).result ≠
      .error (.cmd (.MissingArgument 0 0)) ∧
    cmdC3.arguments = [⟨"xs", true, true⟩] := by
  refine ⟨rfl, ?_, rfl⟩
  intro h
  rw [show (Command.run f0 cmdC3 []).result =
        Except.error (RunErr.cmd (CommandError.MissingArgument 0 1)) from rfl] at h
  simp at h

/-- C3 (amended): on the first required argument at index `i` with no
positional value, `run` fails with `MissingArgument(i, end)` where
`end = command.arguments.len()` (not `len() - 1`) when that argument is an
array argument, and `end = i` otherwise; a sole required array argument
with zero positionals yields `MissingArgument(0, 1)`. -/
theorem c3_missing_argument_end (root : Command) (args : List String)
    (f : Nat → Args → Except String Unit)
    (pre : List CLIArgument) (argd : CLIArgument) (post : List CLIArgument)
    (h1 : (Args.parse root args).1.arguments = pre ++ argd :: post)
    (h2 : hasOpt (Args.parse root args).2.1.opts "--help" = false)
    (h3 : firstFailingOption (Args.parse root args).1.options
            (Args.parse root args).2.1.opts = none)
    (h4 : ∀ m b, pre[m]? = some b → b.required = true →
            m < (Args.parse root args).2.1.pos.length)
    (h5 : argd.required = true)
    (h6 : (Args.parse root args).2.1.pos.length ≤ pre.length) :
    Command.run f root args =
      ⟨[.renderHelp (Args.parse root args).2.2
          (.MissingArgument pre.length
            (if argd.array then (pre ++ argd :: post).length else pre.length))],
        .error (.cmd (.MissingArgument pre.length
          (if argd.array then (pre ++ argd :: post).length else pre.length)))⟩ := by
  have hm := findMissingArg_first pre argd post 0 (pre ++ argd :: post).length
      (Args.parse root args).2.1.pos
      (fun m b hb hreq => by simpa using h4 m b hb hreq)
      h5 (by simpa using h6)
  unfold Command.run
  simp only [h2, Bool.false_eq_true, if_false, h3, h1, hm, Nat.zero_add]

/-- C3 witness: the amended statement at the concrete command `cmdC3`
(sole required array argument) and zero positionals. -/
theorem c3_witness :
    cmdC3.arguments = [⟨"xs", true, true⟩] ∧
    Command.run f0 cmdC3 [] =
      ⟨[.renderHelp none (.MissingArgument 0 1)],
        .error (.cmd (.MissingArgument 0 1))⟩ :=
  ⟨rfl, c3_missing_argument_end cmdC3 [] f0 [] ⟨"xs", true, true⟩ [] rfl rfl rfl
    (fun m b hb => by simp at hb) rfl (by decide)⟩

/-- C4 counterexample: a command with no action and a command whose action
ran and returned success produce the very same value `Ok(())` from `run` —
the caller cannot distinguish the two outcomes, refuting the claim that the
no-action outcome is distinguishable from a successful action. -/
theorem c4_counterexample :
    (Command.run f0 cmdNoAct []).result = (Command.run f0 cmdAct []).result ∧
    (Command.run f0 cmdNoAct []).events = [.renderHelp none .MissingAction] ∧
    (Command.run f0 cmdAct []).events = [.invokeAction 0] :=
  ⟨rfl, rfl, rfl⟩

/-- C4 (amended): when validation passes and the matched command has no
action, `run` renders help with reason `MissingAction` and returns `Ok(())`
— a non-failure outcome, but the same value a successful action produces,
so it is not distinguishable by the caller from the return value alone. -/
theorem c4_missing_action_returns_ok (root : Command) (args : List String)
    (f : Nat → Args → Except String Unit)
    (h1 : hasOpt (Args.parse root args).2.1.opts "--help" = false)
    (h2 : firstFailingOption (Args.parse root args).1.options
            (Args.parse root args).2.1.opts = none)
    (h3 : findMissingArg (Args.parse root args).1.arguments.length
            (Args.parse root args).2.1.pos 0
            (Args.parse root args).1.arguments = none)
    (h4 : (Args.parse root args).1.action = none) :
    Command.run f root args =
      ⟨[.renderHelp (Args.parse root args).2.2 .MissingAction], .ok ()⟩ := by
  unfold Command.run
  simp only [h1, Bool.false_eq_true, if_false, h2, h3, h4]

/-- C4 witness: the amended statement at the concrete command with no
action. -/
theorem c4_witness :
    cmdNoAct.action = none ∧
    Command.run f0 cmdNoAct [] =
      ⟨[.renderHelp none .MissingAction], .ok ()⟩ :=
  ⟨rfl, c4_missing_action_returns_ok cmdNoAct [] f0 rfl rfl rfl rfl⟩

/-- C5 counterexample: a root command that declares its own help callback
(identifier 7) parses to a resolved help callback of `none` — the root's
own callback is never consulted, refuting "including the root it started
from". -/
theorem c5_counterexample :
    (Args.parse rootH []).2.2 = none ∧ rootH.help = some 7 :=
  ⟨rfl, rfl⟩

/-- C5 (amended): the resolved help callback is computed by the parse loop
from an initial `none` — the starting root's own callback is ignored — and
on each descent into a child it becomes the child's callback when the child
declares one and is kept otherwise (nearest descended-into command with a
callback wins, descendants overriding ancestors); tokens that do not match
a child leave it unchanged. -/
theorem c5_help_resolution (root : Command) (args : List String)
    (s : ParseState) (t : String) (c : Command) :
    ((Args.parse root args).2.2 = (parseLoop (initState root) args).help_fn ∧
      (initState root).help_fn = none) ∧
    (findChild s.cur t = some c →
      (parseStep s t).help_fn = c.help.or s.help_fn) ∧
    (findChild s.cur t = none → (parseStep s t).help_fn = s.help_fn) := by
  refine ⟨⟨rfl, rfl⟩, ?_, ?_⟩
  · intro hf
    unfold parseStep
    rw [hf]
  · intro hf
    simp only [parseStep, hf]
    split_ifs <;> rfl

/-- C5 witness: the amended statement at `rootH` (whose own callback is
ignored) and at a concrete descent step into `cmdA`. -/
theorem c5_witness :
    findChild sIgn.cur "a" = some cmdA ∧
    (((Args.parse rootH []).2.2 = (parseLoop (initState rootH) []).help_fn ∧
        (initState rootH).help_fn = none) ∧
      (findChild sIgn.cur "a" = some cmdA →
        (parseStep sIgn "a").help_fn = cmdA.help.or sIgn.help_fn) ∧
      (findChild sIgn.cur "a" = none →
        (parseStep sIgn "a").help_fn = sIgn.help_fn)) :=
  ⟨rfl, c5_help_resolution rootH [] sIgn "a" cmdA⟩

/-- C6: required options are checked in declaration order before any
argument is checked — with `pre ++ o :: post` the declared options, every
required option of `pre` satisfied, and `o` required with none of its names
a key of `parsed.opts`, `run` renders help with `MissingOption o`, returns
the error `MissingOption o`, and performs nothing else (in particular the
action is not invoked and no argument is examined). -/
theorem c6_missing_option (root : Command) (args : List String)
    (f : Nat → Args → Except String Unit)
    (pre : List CLIOption) (o : CLIOption) (post : List CLIOption)
    (h1 : (Args.parse root args).1.options = pre ++ o :: post)
    (h2 : hasOpt (Args.parse root args).2.1.opts "--help" = false)
    (h3 : ∀ p ∈ pre, p.required = true →
      (p.names.any fun n => hasOpt (Args.parse root args).2.1.opts n) = true)
    (h4 : o.required = true)
    (h5 : (o.names.any fun n => hasOpt (Args.parse root args).2.1.opts n) = false) :
    Command.run f root args =
      ⟨[.renderHelp (Args.parse root args).2.2 (.MissingOption o)],
        .error (.cmd (.MissingOption o))⟩ := by
  have hff := firstFailingOption_first pre o post _ h3 h4 h5
  unfold Command.run
  simp only [h2, Bool.false_eq_true, if_false, h1, hff]

/-- C6 witness: the concrete command `cmdReq`, whose sole option `-r` is
required, run with no arguments. -/
theorem c6_witness :
    cmdReq.options = [⟨["-r"], "req", true⟩] ∧
    Command.run f0 cmdReq [] =
      ⟨[.renderHelp none (.MissingOption ⟨["-r"], "req", true⟩)],
        .error (.cmd (.MissingOption ⟨["-r"], "req", true⟩))⟩ :=
  ⟨rfl, c6_missing_option cmdReq [] f0 [] ⟨["-r"], "req", true⟩ [] rfl rfl
    (fun p hp => by simp at hp) rfl (by decide)⟩

/-- C7: a token starting with a single `-` (not `--`, not the terminator)
that does not match a subcommand, parsed while options are accepted, leaves
the current command and `pos` unchanged and inserts, for each character of
the part before the first `=` after the leading dash, an option keyed
`"-" + char`, all bound to the shared value — the part after the first `=`
when present, else the literal `"true"`. -/
theorem c7_short_option_cluster (s : ParseState) (arg : String) (c : Char)
    (h0 : findChild s.cur arg = none)
    (h1 : s.ignore = false)
    (h2 : (arg == "--") = false)
    (h3 : strStarts arg "--" = false)
    (h4 : strStarts arg "-" = true)
    (h5 : c ∈ (splitFirstEq arg).1.data.drop 1) :
    (parseStep s arg).cur = s.cur ∧
    (parseStep s arg).pos = s.pos ∧
    (parseStep s arg).opts =
      shortInsert s.opts ((splitFirstEq arg).1.data.drop 1)
        ((splitFirstEq arg).2.getD "true") ∧
    findOpt (parseStep s arg).opts (String.mk ['-', c]) =
      some ((splitFirstEq arg).2.getD "true") := by
  have hstep : parseStep s arg = { s with opts := shortInsert s.opts ((splitFirstEq arg).1.data.drop 1) ((splitFirstEq arg).2.getD "true") } := by
    simp only [parseStep, h0, h1, h2, h3, h4, Bool.false_eq_true, if_false,
      if_true]
  refine ⟨by rw [hstep], by rw [hstep], by rw [hstep], ?_⟩
  rw [hstep]
  exact findOpt_shortInsert_mem s.opts _ h5

/-- C7 witness: the token `"-abc=val"` parsed against a fresh command
produces the three independent entries `-a`, `-b`, `-c`, each bound to
`"val"`. -/
theorem c7_witness :
    'a' ∈ (splitFirstEq "-abc=val").1.data.drop 1 ∧
    ((parseStep (initState (Command.new "app")) "-abc=val").cur =
        (initState (Command.new "app")).cur ∧
      (parseStep (initState (Command.new "app")) "-abc=val").pos =
        (initState (Command.new "app")).pos ∧
      (parseStep (initState (Command.new "app")) "-abc=val").opts =
        shortInsert (initState (Command.new "app")).opts
          ((splitFirstEq "-abc=val").1.data.drop 1)
          ((splitFirstEq "-abc=val").2.getD "true") ∧
      findOpt (parseStep (initState (Command.new "app")) "-abc=val").opts
          (String.mk ['-', 'a']) =
        some ((splitFirstEq "-abc=val").2.getD "true")) ∧
    (Args.parse (Command.new "app") ["-abc=val"]).2.1.opts =
      [("-a", "val"), ("-b", "val"), ("-c", "val")] :=
  ⟨by decide,
    c7_short_option_cluster (initState (Command.new "app")) "-abc=val" 'a'
      rfl rfl rfl (by decide) (by decide) (by decide),
    rfl⟩

/-- C8: subcommand resolution is first-match-wins in declaration order —
when the current command's children are `pre ++ c :: post`, no child of
`pre` has a name equal to the token, and `c` does, the child descended into
is `c`. -/
theorem c8_first_match (s : ParseState) (t : String)
    (pre : List Command) (c : Command) (post : List Command)
    (h1 : s.cur.children = pre ++ c :: post)
    (h2 : ∀ d ∈ pre, (d.names.any fun al => al == t) = false)
    (h3 : (c.names.any fun al => al == t) = true) :
    findChild s.cur t = some c ∧ (parseStep s t).cur = c := by
  have hf : findChild s.cur t = some c := by
    unfold findChild
    rw [h1]
    exact find?_first _ pre c post h2 h3
  exact ⟨hf, by unfold parseStep; rw [hf]⟩

/-- C8 witness: the claim's concrete instance — root with children
`[A(names=["a"]), B(names=["a","b"])]` and token list `["a"]` resolves to
`A` (marker action 1), never `B` (marker action 2). -/
theorem c8_witness :
    rootAB.children = [] ++ cmdA8 :: [cmdB8] ∧
    (findChild (initState rootAB).cur "a" = some cmdA8 ∧
      (parseStep (initState rootAB) "a").cur = cmdA8) ∧
    (Args.parse rootAB ["a"]).1 = cmdA8 ∧
    cmdA8.action = some 1 ∧ cmdB8.action = some 2 :=
  ⟨rfl,
    c8_first_match (initState rootAB) "a" [] cmdA8 [cmdB8] rfl
      (fun d hd => by simp at hd) (by decide),
    rfl, rfl, rfl⟩

/-- C9: every command reachable through the public builder surface
satisfies the invariant that an argument marked `array` is never marked
`required`; consequently, for such commands the array branch of the
`MissingArgument` end-index computation in `run` is unreachable — whenever
`run` fails with `MissingArgument(i, e)`, `e = i`. -/
theorem c9_array_never_required (c : Command)
    (f : Nat → Args → Except String Unit) (args : List String)
    (i e : Nat) (a : CLIArgument) (hb : Built c) :
    (a ∈ c.arguments → a.array = true → a.required = false) ∧
    ((Command.run f c args).result =
        .error (.cmd (.MissingArgument i e)) → e = i) := by
  have hinv := built_treeInv hb
  constructor
  · intro ha harr
    exact treeInv_arguments hinv a ha harr
  · intro hres
    have hmatched : TreeInv (Args.parse c args).1 := treeInv_parse args hinv
    unfold Command.run at hres
    by_cases h1 : hasOpt (Args.parse c args).2.1.opts "--help" = true
    · simp [h1] at hres
    · rw [if_neg h1] at hres
      rcases h2 : firstFailingOption (Args.parse c args).1.options
          (Args.parse c args).2.1.opts with _ | o
      · rcases h3 : findMissingArg (Args.parse c args).1.arguments.length
            (Args.parse c args).2.1.pos 0 (Args.parse c args).1.arguments
            with _ | pe
        · rcases h4 : (Args.parse c args).1.action with _ | id
          · simp [h2, h3, h4] at hres
          · simp only [h2, h3, h4] at hres
            rcases hfa : f id (Args.parse c args).2.1 with _ | u <;>
              simp [hfa, Except.mapError] at hres
        · simp only [h2, h3] at hres
          simp only [RunOutput.mk.injEq, Except.error.injEq, RunErr.cmd.injEq,
            CommandError.MissingArgument.injEq] at hres
          obtain ⟨hi, he⟩ := hres.2
          have := findMissingArg_scalar (Args.parse c args).1.arguments 0
            (Args.parse c args).1.arguments.length (Args.parse c args).2.1.pos
            pe.1 pe.2 (treeInv_arguments hmatched) (by rw [h3])
          omega
      · simp [h2] at hres

/-- C9 witness: the built command with one required scalar argument fails
on zero positionals with `MissingArgument(0, 0)`, and the end index equals
the start index as the theorem states. -/
theorem c9_witness :
    ((⟨"x", true, false⟩ : CLIArgument) ∈ cmdBuilt.arguments →
      (⟨"x", true, false⟩ : CLIArgument).array = true →
      (⟨"x", true, false⟩ : CLIArgument).required = false) ∧
    ((Command.run f0 cmdBuilt []).result =
      .error (.cmd (.MissingArgument 0 0)) → (0 : Nat) = 0) :=
  c9_array_never_required cmdBuilt f0 [] 0 0 ⟨"x", true, false⟩
    (Built.argument "x" (Built.new "t"))

/-- C10: when `name` is a key of `opts`, `get_or` is the parse of `name`'s
value only (in particular it is `none` whenever that value fails to parse,
regardless of `other`); the second name is consulted exactly when `name` is
absent. -/
theorem c10_get_or (α : Type) (p : String → Option α) (a : Args)
    (n o v : String) :
    (findOpt a.opts n = some v → Args.get_or p a n o = p v) ∧
    (findOpt a.opts n = none → Args.get_or p a n o = Args.get p a o) := by
  constructor
  · intro h
    unfold Args.get_or hasOpt
    rw [h]
    simp [Args.get, h]
  · intro h
    unfold Args.get_or hasOpt
    rw [h]
    simp

/-- C10 witness: with `-x ↦ "abc"` (unparsable as `Nat`) and `-y ↦ "5"`
(parsable), `get_or` on `("-x", "-y")` is `none` — the fallback name is not
consulted when the first is present — while `get` on `-y` alone parses. -/
theorem c10_witness :
    findOpt exArgs.opts "-x" = some "abc" ∧
    Args.get_or pNat exArgs "-x" "-y" = pNat "abc" ∧
    pNat "abc" = none ∧
    Args.get pNat exArgs "-y" = some 5 :=
  ⟨rfl, (c10_get_or Nat pNat exArgs "-x" "-y" "abc").1 rfl, by decide, by decide⟩

end Icicle
